import Mathlib

/-!
Verification of the PyKV storage engine: the LRU cache (app/lru.py), the
synchronous write-ahead-log store (app/store.py) and the asynchronous store
with TTL and log compaction (app/simple_store.py).

Python dictionaries are embedded as association lists with string keys;
the intrusive doubly linked recency list is embedded as the list of keys in
recency order (front = most recently used).  Timestamps and TTL values,
floats in the source, are embedded as rationals; machine-level rounding of
float arithmetic is not modelled, the arithmetic the claims are about is
exact subtraction and comparison.
-/

set_option autoImplicit false

namespace PyKV

/-- Lookup in an association list: the value paired with the first
occurrence of the key, as a Python dict read `d[k]` / `k in d`. -/
def assocGet {α : Type} (k : String) : List (String × α) → Option α
  | [] => none
  | (j, v) :: t => if j = k then some v else assocGet k t

/-- Update the first binding of a key, keeping its position, as the source
statement `node.value = value` updates the node held in the dict. -/
def assocSet {α : Type} (k : String) (v : α) : List (String × α) → List (String × α)
  | [] => []
  | (j, w) :: t => if j = k then (j, v) :: t else (j, w) :: assocSet k v t

/-- Remove the first binding of a key, as `del d[k]`. -/
def assocErase {α : Type} (k : String) : List (String × α) → List (String × α)
  | [] => []
  | (j, w) :: t => if j = k then t else (j, w) :: assocErase k t

/-- Keys of an association list, in order. -/
def assocKeys {α : Type} (l : List (String × α)) : List String := l.map Prod.fst

/-! ## app/lru.py — class LRUCache

`cache` is the dict `self.cache` (key to node; the node's payload is its
value), `dll` is `self.dll` read from front (most recently used) to back
(least recently used), sentinels omitted.  The capacity is an `Int`, as a
Python integer may be zero or negative. -/

structure LRUCache where
  capacity : Int
  cache : List (String × String)
  dll : List String
  deriving Repr, DecidableEq

/-- Fresh cache, `LRUCache.__init__`. -/
def emptyLRU (capacity : Int) : LRUCache := ⟨capacity, [], []⟩

/-- LRUCache.get: on a hit the node moves to the front of the recency
list and the value is returned; on a miss None is returned. -/
def LRUCache.get (c : LRUCache) (k : String) : Option String × LRUCache :=
  match assocGet k c.cache with
  | none => (none, c)
  | some v => (some v, { c with dll := k :: c.dll.erase k })

/-- The eviction step inside LRUCache.put: when
`len(self.cache) >= self.capacity`, `remove_from_end` unlinks and returns
the last node (or returns no node on an empty list, in which case the dict
is not touched either) and its key is deleted from the dict. -/
def LRUCache.evictIfFull (c : LRUCache) : LRUCache :=
  if (c.cache.length : Int) ≥ c.capacity then
    match c.dll.getLast? with
    | some lruKey => { c with cache := assocErase lruKey c.cache, dll := c.dll.dropLast }
    | none => c
  else c

/-- LRUCache.put: an existing key has its value replaced and moves to the
front; a new key first triggers the eviction step and is then inserted at
the front unconditionally. -/
def LRUCache.put (c : LRUCache) (k v : String) : LRUCache :=
  match assocGet k c.cache with
  | some _ => { c with cache := assocSet k v c.cache, dll := k :: c.dll.erase k }
  | none =>
      let c1 := c.evictIfFull
      { c1 with cache := (k, v) :: c1.cache, dll := k :: c1.dll }

/-- LRUCache.delete: a present key is removed from the recency list and
the index and true is returned, otherwise false. -/
def LRUCache.delete (c : LRUCache) (k : String) : Bool × LRUCache :=
  match assocGet k c.cache with
  | some _ => (true, { c with cache := assocErase k c.cache, dll := c.dll.erase k })
  | none => (false, c)

/-- The size of the cache, `len(self.cache)`. -/
def LRUCache.size (c : LRUCache) : Nat := c.cache.length

/-- Well-formedness of a cache state: the dict keys are distinct, the
recency list is duplicate-free, membership in the dict and in the list
coincide, and both structures have the same number of entries.  The empty
cache satisfies it and (proved below) every operation preserves it. -/
structure LRUCache.WF (c : LRUCache) : Prop where
  nodupK : (assocKeys c.cache).Nodup
  nodupD : c.dll.Nodup
  mem : ∀ k, (assocGet k c.cache).isSome ↔ k ∈ c.dll
  len : c.cache.length = c.dll.length

/-! ## app/store.py — class KeyValueStore

The WAL of the synchronous store.  `_log` appends the line
`action + "|" + key + "|" + str(value) + "\n"` to the file; `delete` calls
`_log("DEL", key)` with the value defaulted to None, which the f-string
prints as the four characters `None`.  The store state keeps the log as the
list of appended records; `fileOf` renders the on-disk file content. -/

structure SRec where
  action : String
  key : String
  value : Option String
  deriving Repr, DecidableEq

/-- The line `_log` writes for one record (f-string plus newline). -/
def encodeRec (r : SRec) : String :=
  r.action ++ "|" ++ r.key ++ "|" ++ (match r.value with | some v => v | none => "None") ++ "\n"

/-- The on-disk WAL file produced by a sequence of `_log` appends. -/
def fileOf (log : List SRec) : String := String.join (log.map encodeRec)

/-- Split a character list at every occurrence of a separator, keeping
empty segments, as Python str.split with an explicit separator. -/
def splitCh (sep : Char) : List Char → List (List Char)
  | [] => [[]]
  | c :: t =>
      let r := splitCh sep t
      if c = sep then [] :: r
      else
        match r with
        | [] => [[c]]
        | h :: t2 => (c :: h) :: t2

/-- Python str.strip with no argument: whitespace removed from both ends. -/
def pyStrip (s : String) : String :=
  String.mk (((s.data.dropWhile Char.isWhitespace).reverse.dropWhile Char.isWhitespace).reverse)

/-- The lines Python file iteration yields: the content split on the
newline character, with no empty final line when the content ends in a
newline. -/
def pyLines (s : String) : List String :=
  let parts := (splitCh '\n' s.data).map String.mk
  if parts.getLast? = some "" then parts.dropLast else parts

/-- One recovery line parse of `_recover`:
`action, key, value = line.strip().split("|")` raises ValueError unless the
stripped line splits on the pipe into exactly three fields. -/
def parseSyncLine (line : String) : Except Unit (String × String × String) :=
  match (splitCh '|' (pyStrip line).data).map String.mk with
  | [a, k, v] => .ok (a, k, v)
  | _ => .error ()

/-- KeyValueStore._recover replaying a file into a fresh cache of the given
capacity: each line is parsed (an unparseable line raises, aborting
recovery), SET is applied as a put and DEL as a delete; any other action
tag is ignored. -/
def recoverFile (capacity : Int) (file : String) : Except Unit LRUCache :=
  (pyLines file).foldlM
    (fun c line => do
      let (a, k, v) ← parseSyncLine line
      if a = "SET" then pure (c.put k v)
      else if a = "DEL" then pure ((c.delete k).2)
      else pure c)
    (emptyLRU capacity)

/-- The synchronous store: the cache plus the WAL as the sequence of
appended records. -/
structure KeyValueStore where
  cache : LRUCache
  log : List SRec
  deriving Repr, DecidableEq

/-- A fresh store over an absent log file. -/
def emptyStore (capacity : Int) : KeyValueStore := ⟨emptyLRU capacity, []⟩

/-- KeyValueStore.set: cache put, then `_log("SET", key, value)`. -/
def KeyValueStore.set (st : KeyValueStore) (k v : String) : KeyValueStore :=
  { cache := st.cache.put k v, log := st.log ++ [⟨"SET", k, some v⟩] }

/-- KeyValueStore.get: the cache lookup (which refreshes recency); the log
is untouched. -/
def KeyValueStore.getOp (st : KeyValueStore) (k : String) : Option String × KeyValueStore :=
  let (r, c) := st.cache.get k
  (r, { st with cache := c })

/-- KeyValueStore.delete: cache delete; a DEL record is appended exactly
when a key was actually removed. -/
def KeyValueStore.delete (st : KeyValueStore) (k : String) : Bool × KeyValueStore :=
  let (d, c) := st.cache.delete k
  (d, { cache := c, log := if d then st.log ++ [⟨"DEL", k, none⟩] else st.log })

/-- KeyValueStore.set with a fallible WAL append: the cache mutation comes
first; when the append raises an I/O error the error propagates, the log is
unchanged and the cache mutation stays. -/
def KeyValueStore.setF (st : KeyValueStore) (k v : String) (appendOk : Bool) :
    KeyValueStore × Except Unit Unit :=
  let c := st.cache.put k v
  if appendOk then ({ cache := c, log := st.log ++ [⟨"SET", k, some v⟩] }, .ok ())
  else ({ cache := c, log := st.log }, .error ())

/-- KeyValueStore.delete with a fallible WAL append: the cache delete comes
first; when a key was removed and the append raises, the error propagates
with the key already gone from the cache and no DEL record on disk. -/
def KeyValueStore.deleteF (st : KeyValueStore) (k : String) (appendOk : Bool) :
    KeyValueStore × Except Unit Bool :=
  let (d, c) := st.cache.delete k
  if d then
    if appendOk then ({ cache := c, log := st.log ++ [⟨"DEL", k, none⟩] }, .ok true)
    else ({ cache := c, log := st.log }, .error ())
  else ({ cache := c, log := st.log }, .ok false)

/-! ## Client operation sequences against the synchronous store -/

/-- One client operation against the store. -/
inductive Op where
  | set (k v : String)
  | get (k : String)
  | del (k : String)
  deriving Repr, DecidableEq

/-- Apply one operation to the store state. -/
def stepStore (st : KeyValueStore) : Op → KeyValueStore
  | .set k v => st.set k v
  | .get k => (st.getOp k).2
  | .del k => (st.delete k).2

/-- Run a sequence of client operations. -/
def runStore (st : KeyValueStore) (ops : List Op) : KeyValueStore :=
  ops.foldl stepStore st

/-- Whether running the operations from the given store never triggers the
eviction branch of `put` (a set of a new key while `len(cache) >= capacity`). -/
def evictFree (st : KeyValueStore) : List Op → Bool
  | [] => true
  | op :: rest =>
      (match op with
        | .set k _ => !((assocGet k st.cache.cache).isNone &&
                        ((st.cache.cache.length : Int) ≥ st.cache.capacity))
        | _ => true) &&
      evictFree (stepStore st op) rest

/-- Replay of one logged record as `_recover` applies it: SET as upsert,
DEL as removal.  A value of None prints (and hence replays) as the string
`None`; SET records written by `set` always carry a value. -/
def replayRec (c : LRUCache) (r : SRec) : LRUCache :=
  if r.action = "SET" then c.put r.key (r.value.getD "None")
  else if r.action = "DEL" then (c.delete r.key).2
  else c

/-- Replay of a record sequence in order into a fresh cache. -/
def replayRecs (capacity : Int) (log : List SRec) : LRUCache :=
  log.foldl replayRec (emptyLRU capacity)

/-! ## Cache-level operation sequences, for the capacity invariant -/

/-- One direct operation on the LRU cache. -/
inductive COp where
  | put (k v : String)
  | get (k : String)
  | del (k : String)
  deriving Repr, DecidableEq

/-- Apply one cache operation. -/
def stepLRU (c : LRUCache) : COp → LRUCache
  | .put k v => c.put k v
  | .get k => (c.get k).2
  | .del k => (c.delete k).2

/-- Run a sequence of cache operations. -/
def runLRU (c : LRUCache) (ops : List COp) : LRUCache := ops.foldl stepLRU c

/-- The simulation relation between the live store state and the cache
obtained by replaying its log: both are well-formed, they agree on the
capacity, on every key-value binding, and on occupancy. -/
structure Sim (st : KeyValueStore) (r : LRUCache) : Prop where
  wfL : st.cache.WF
  wfR : r.WF
  cap : r.capacity = st.cache.capacity
  maps : ∀ k, assocGet k r.cache = assocGet k st.cache.cache
  len : r.cache.length = st.cache.cache.length

/-! ## app/simple_store.py — class SimpleAsyncKeyValueStore

The asynchronous store logs one JSON object per line.  A parsed record
carries the fields the store reads out of the object; a field the object
lacks is None.  Timestamps and TTL values are rationals.  The class
AsyncLRUCache lives in app/async_lru.py, which is not among the sources;
that cache is modelled from the specification, as marked below. -/

/-- One parsed JSON log record of the asynchronous store.  The timestamp
is optional: recovery reads it only on the TTL path, where a missing key
raises KeyError, which the skip handler catches. -/
structure JEntry where
  timestamp : Option Rat
  action : String
  key : String
  value : Option String
  ttl : Option Rat
  deriving Repr, DecidableEq

/-- Python truthiness of an optional number, as in `if ttl:`: None and
zero are falsy. -/
def pyTruthy (q : Option Rat) : Bool :=
  match q with
  | none => false
  | some t => if t = 0 then false else true

/-- Python int() applied to an exact rational: truncation toward zero. -/
def pyInt (q : Rat) : Int := if 0 ≤ q then ⌊q⌋ else -⌊-q⌋

/-- Modelled from the spec: class AsyncLRUCache of app/async_lru.py is
absent from the sources.  Per the specification the cache maps keys to
entries `(value, expires_at)` held in most-recently-used-first order, a
provided TTL is stored as the absolute expiry `now + ttl` computed at
insertion time, and a put of a new key when `size == capacity` evicts the
tail entry.  Values are optional strings since the store can log a SET
whose value field is None. -/
structure AsyncCache where
  capacity : Int
  entries : List (String × Option String × Option Rat)
  deriving Repr, DecidableEq

/-- A fresh asynchronous cache. -/
def emptyAsync (capacity : Int) : AsyncCache := ⟨capacity, []⟩

/-- Modelled from the spec: AsyncLRUCache.put — an existing key has value
and expiry replaced and moves to the front; a new key is inserted at the
front, evicting the tail when the cache sits exactly at capacity. -/
def AsyncCache.put (c : AsyncCache) (now : Rat) (k : String) (v : Option String)
    (ttl : Option Rat) : AsyncCache :=
  let expiresAt := ttl.map (fun t => now + t)
  if (assocGet k c.entries).isSome then
    { c with entries := (k, (v, expiresAt)) :: assocErase k c.entries }
  else
    let c1 :=
      if (c.entries.length : Int) = c.capacity then { c with entries := c.entries.dropLast }
      else c
    { c1 with entries := (k, (v, expiresAt)) :: c1.entries }

/-- Modelled from the spec: AsyncLRUCache.delete — a present key is
removed and true returned, otherwise false. -/
def AsyncCache.delete (c : AsyncCache) (k : String) : Bool × AsyncCache :=
  if (assocGet k c.entries).isSome then (true, { c with entries := assocErase k c.entries })
  else (false, c)

/-- Modelled from the spec: AsyncLRUCache.get_raw — inspection of
`(value, expires_at)` without a recency update. -/
def AsyncCache.getRaw (c : AsyncCache) (k : String) : Option (Option String × Option Rat) :=
  assocGet k c.entries

/-- Modelled from the spec: AsyncLRUCache.get_all_keys — a snapshot of the
keys with no recency side effect. -/
def AsyncCache.allKeys (c : AsyncCache) : List String := assocKeys c.entries

/-- SimpleAsyncKeyValueStore._recover, the handling of one parsed record:
a SET whose ttl field is truthy reads the record timestamp (skipping the
record when it is missing, the caught KeyError), computes the remaining
TTL `ttl - (now - timestamp)` and drops the record unless that is
positive; a SET whose ttl field is None or zero is inserted with no
expiry; a DEL removes the key; any other action is ignored. -/
def applyEntry (now : Rat) (c : AsyncCache) (e : JEntry) : AsyncCache :=
  if e.action = "SET" then
    if pyTruthy e.ttl then
      match e.timestamp, e.ttl with
      | some ts, some t =>
          let remaining := t - (now - ts)
          if remaining ≤ 0 then c else c.put now e.key e.value (some remaining)
      | _, _ => c
    else c.put now e.key e.value none
  else if e.action = "DEL" then (c.delete e.key).2
  else c

/-- SimpleAsyncKeyValueStore._recover over the sequence of file lines,
each line represented by its JSON parse outcome: a line that raises
JSONDecodeError or KeyError is skipped (with a diagnostic print) and
recovery continues with an unchanged cache. -/
def recoverLines (now : Rat) (capacity : Int) (lines : List (Option JEntry)) : AsyncCache :=
  lines.foldl
    (fun c l =>
      match l with
      | none => c
      | some e => applyEntry now c e)
    (emptyAsync capacity)

/-- SimpleAsyncKeyValueStore.compact_log, the records written to the
temporary file: a snapshot of every cache entry in order; an entry whose
expiry is truthy is emitted with TTL recomputed as
`max(0, int(expires_at - now))` and skipped entirely when that is not
positive; an entry with no (or zero, hence falsy) expiry is emitted with a
None TTL; every emitted record is a SET stamped with the compaction
time. -/
def compactFun (now : Rat) (p : String × Option String × Option Rat) : Option JEntry :=
  match p with
  | (k, v, expAt) =>
      match expAt with
      | none => some ⟨some now, "SET", k, v, none⟩
      | some e =>
          if e = 0 then some ⟨some now, "SET", k, v, none⟩
          else
            let ttl := max 0 (pyInt (e - now))
            if ttl ≤ 0 then none
            else some ⟨some now, "SET", k, v, some (ttl : Rat)⟩

/-- The full compaction output: the loop body `compactFun` applied to every
snapshot entry in order. -/
def compactRecords (now : Rat) (c : AsyncCache) : List JEntry :=
  c.entries.filterMap (compactFun now)

/-- The binding a replayed compaction record produces for its key: the
value as logged and, when the record carries a TTL t, the absolute expiry
`now + t` computed by the cache at re-insertion. -/
def replayedEntry (now : Rat) (e : JEntry) : String × Option String × Option Rat :=
  (e.key, (e.value, e.ttl.map (fun t => now + t)))

/-- The binding the amended compaction claim predicts for a live entry
`(value, expires_at)` after one compaction and a replay of the compacted
WAL at the same time: an entry with no (or falsy zero) expiry survives with
no expiry; an entry whose truncated remaining TTL `int(expires_at - now)`
is not positive is omitted; any other entry survives with its expiry
recomputed to `now + int(expires_at - now)`. -/
def compactOutcome (now : Rat) (v : Option String) (expAt : Option Rat) :
    Option (Option String × Option Rat) :=
  match expAt with
  | none => some (v, none)
  | some e =>
      if e = 0 then some (v, none)
      else if pyInt (e - now) ≤ 0 then none
      else some (v, some (now + (pyInt (e - now) : Rat)))

/-! ## Association list lemmas -/

@[simp] theorem assocKeys_nil {α : Type} : assocKeys ([] : List (String × α)) = [] := rfl

@[simp] theorem assocKeys_cons {α : Type} (j : String) (v : α) (t : List (String × α)) :
    assocKeys ((j, v) :: t) = j :: assocKeys t := rfl

theorem assocGet_isSome_iff {α : Type} (k : String) (l : List (String × α)) :
    (assocGet k l).isSome ↔ k ∈ assocKeys l := by
  induction l with
  | nil => simp [assocGet]
  | cons p t ih =>
      obtain ⟨j, v⟩ := p
      by_cases h : j = k
      · subst h
        simp [assocGet]
      · simp only [assocGet, if_neg h, assocKeys_cons, List.mem_cons, ih]
        constructor
        · exact fun hm => Or.inr hm
        · rintro (h1 | hm)
          · exact absurd h1.symm h
          · exact hm

theorem assocGet_eq_none_iff {α : Type} (k : String) (l : List (String × α)) :
    assocGet k l = none ↔ k ∉ assocKeys l := by
  rw [← assocGet_isSome_iff, Option.isSome_iff_ne_none]
  tauto

theorem assocKeys_assocSet {α : Type} (k : String) (v : α) (l : List (String × α)) :
    assocKeys (assocSet k v l) = assocKeys l := by
  induction l with
  | nil => rfl
  | cons p t ih =>
      obtain ⟨j, w⟩ := p
      by_cases h : j = k <;> simp [assocSet, h, ih]

theorem length_assocSet {α : Type} (k : String) (v : α) (l : List (String × α)) :
    (assocSet k v l).length = l.length := by
  induction l with
  | nil => rfl
  | cons p t ih =>
      obtain ⟨j, w⟩ := p
      by_cases h : j = k <;> simp [assocSet, h, ih]

theorem assocGet_assocSet_self {α : Type} (k : String) (v : α) (l : List (String × α))
    (h : (assocGet k l).isSome) : assocGet k (assocSet k v l) = some v := by
  induction l with
  | nil => simp [assocGet] at h
  | cons p t ih =>
      obtain ⟨j, w⟩ := p
      by_cases hj : j = k
      · subst hj
        simp [assocSet, assocGet]
      · simp only [assocGet, if_neg hj] at h
        simp [assocSet, assocGet, hj, ih h]

theorem assocGet_assocSet_ne {α : Type} (j k : String) (v : α) (l : List (String × α))
    (h : j ≠ k) : assocGet j (assocSet k v l) = assocGet j l := by
  induction l with
  | nil => rfl
  | cons p t ih =>
      obtain ⟨i, w⟩ := p
      by_cases hi : i = k
      · have hkj : ¬ k = j := fun hh => h hh.symm
        simp [assocSet, assocGet, hi, hkj]
      · by_cases hij : i = j <;> simp [assocSet, assocGet, hi, hij, h, ih]

theorem assocKeys_assocErase {α : Type} (k : String) (l : List (String × α)) :
    assocKeys (assocErase k l) = (assocKeys l).erase k := by
  induction l with
  | nil => rfl
  | cons p t ih =>
      obtain ⟨j, w⟩ := p
      by_cases h : j = k <;> simp [assocErase, List.erase_cons, h, ih]

theorem assocErase_of_not_mem {α : Type} (k : String) (l : List (String × α))
    (h : k ∉ assocKeys l) : assocErase k l = l := by
  induction l with
  | nil => rfl
  | cons p t ih =>
      obtain ⟨j, w⟩ := p
      simp only [assocKeys_cons, List.mem_cons] at h
      push_neg at h
      have hj : ¬ j = k := fun hh => h.1 hh.symm
      simp [assocErase, hj, ih h.2]

theorem length_assocErase_of_mem {α : Type} (k : String) (l : List (String × α))
    (h : k ∈ assocKeys l) : (assocErase k l).length = l.length - 1 := by
  induction l with
  | nil => simp at h
  | cons p t ih =>
      obtain ⟨j, w⟩ := p
      by_cases hj : j = k
      · simp [assocErase, hj]
      · simp only [assocKeys_cons, List.mem_cons] at h
        rcases h with h | h
        · exact absurd h.symm hj
        · have ht : t ≠ [] := by
            intro hnil
            subst hnil
            simp at h
          have : 1 ≤ t.length := List.length_pos.mpr ht
          simp only [assocErase, if_neg hj, List.length_cons, ih h]
          omega

theorem assocGet_assocErase_self {α : Type} (k : String) (l : List (String × α))
    (h : (assocKeys l).Nodup) : assocGet k (assocErase k l) = none := by
  induction l with
  | nil => rfl
  | cons p t ih =>
      obtain ⟨j, w⟩ := p
      simp only [assocKeys_cons, List.nodup_cons] at h
      by_cases hj : j = k
      · subst hj
        simp only [assocErase, if_pos rfl]
        rw [assocGet_eq_none_iff]
        exact h.1
      · simp [assocErase, assocGet, hj, ih h.2]

theorem assocGet_assocErase_ne {α : Type} (j k : String) (l : List (String × α))
    (h : j ≠ k) : assocGet j (assocErase k l) = assocGet j l := by
  induction l with
  | nil => rfl
  | cons p t ih =>
      obtain ⟨i, w⟩ := p
      by_cases hi : i = k
      · have hkj : ¬ k = j := fun hh => h hh.symm
        simp [assocErase, assocGet, hi, hkj]
      · by_cases hij : i = j <;> simp [assocErase, assocGet, hi, hij, h, ih]

/-! ## LRU cache invariant lemmas -/

theorem wf_empty (cap : Int) : (emptyLRU cap).WF := by
  constructor <;> simp [emptyLRU, assocGet]

theorem evictIfFull_eq (c : LRUCache) :
    (c.evictIfFull = c ∧ ((c.cache.length : Int) < c.capacity ∨ c.dll = [])) ∨
    ∃ ys x, c.dll = ys ++ [x] ∧ (c.cache.length : Int) ≥ c.capacity ∧
      c.evictIfFull = { c with cache := assocErase x c.cache, dll := ys } := by
  unfold LRUCache.evictIfFull
  by_cases hfull : (c.cache.length : Int) ≥ c.capacity
  · rw [if_pos hfull]
    rcases List.eq_nil_or_concat c.dll with hnil | ⟨ys, x, hc⟩
    · left
      rw [hnil]
      exact ⟨rfl, Or.inr rfl⟩
    · right
      refine ⟨ys, x, by simpa using hc, hfull, ?_⟩
      rw [hc]
      simp [List.concat_eq_append, List.getLast?_concat, List.dropLast_concat]
  · rw [if_neg hfull]
    exact Or.inl ⟨rfl, Or.inl (lt_of_not_ge hfull)⟩

theorem capacity_evictIfFull (c : LRUCache) : c.evictIfFull.capacity = c.capacity := by
  rcases evictIfFull_eq c with ⟨h, _⟩ | ⟨ys, x, _, _, h⟩ <;> rw [h]

theorem evictIfFull_of_lt (c : LRUCache) (h : (c.cache.length : Int) < c.capacity) :
    c.evictIfFull = c := by
  unfold LRUCache.evictIfFull
  rw [if_neg (not_le.mpr h)]

theorem wf_evictIfFull {c : LRUCache} (h : c.WF) : c.evictIfFull.WF := by
  rcases evictIfFull_eq c with ⟨he, _⟩ | ⟨ys, x, hdll, _, he⟩
  · rw [he]; exact h
  · rw [he]
    have hnd := h.nodupD
    rw [hdll, List.nodup_append] at hnd
    have hxys : x ∉ ys := fun hm => hnd.2.2 hm (List.mem_singleton.mpr rfl)
    have hxd : x ∈ c.dll := by rw [hdll]; simp
    have hxk : x ∈ assocKeys c.cache := (assocGet_isSome_iff x c.cache).mp ((h.mem x).mpr hxd)
    constructor
    · rw [assocKeys_assocErase]
      exact h.nodupK.erase x
    · exact hnd.1
    · intro j
      by_cases hj : j = x
      · subst hj
        simp [assocGet_assocErase_self j c.cache h.nodupK, hxys]
      · rw [show assocGet j (assocErase x c.cache) = assocGet j c.cache from
          assocGet_assocErase_ne j x c.cache hj]
        rw [h.mem j, hdll]
        simp [hj]
    · have h1 : (assocErase x c.cache).length = c.cache.length - 1 :=
        length_assocErase_of_mem x c.cache hxk
      have h2 : c.cache.length = ys.length + 1 := by
        rw [h.len, hdll]
        simp
      simp only [h1, h2]
      omega

theorem wf_put {c : LRUCache} (h : c.WF) (k v : String) : (c.put k v).WF := by
  unfold LRUCache.put
  cases hg : assocGet k c.cache with
  | some w =>
      have hkd : k ∈ c.dll := (h.mem k).mp (by rw [hg]; rfl)
      constructor
      · rw [assocKeys_assocSet]
        exact h.nodupK
      · exact List.Nodup.cons (h.nodupD.not_mem_erase) (h.nodupD.erase k)
      · intro j
        by_cases hj : j = k
        · subst hj
          simp [assocGet_assocSet_self j v c.cache (by rw [hg]; rfl)]
        · rw [assocGet_assocSet_ne j k v c.cache hj, h.mem j]
          simp [hj, h.nodupD.mem_erase_iff]
      · have hlen1 : 1 ≤ c.dll.length := List.length_pos.mpr (List.ne_nil_of_mem hkd)
        simp only [length_assocSet, List.length_cons, List.length_erase_of_mem hkd, h.len]
        omega
  | none =>
      have h1 := wf_evictIfFull h
      have hkc1 : assocGet k c.evictIfFull.cache = none := by
        rcases evictIfFull_eq c with ⟨he, _⟩ | ⟨ys, x, hdll, _, he⟩
        · rw [he, hg]
        · rw [he]
          have hxd : x ∈ c.dll := by rw [hdll]; simp
          have hxk : (assocGet x c.cache).isSome = true := (h.mem x).mpr hxd
          have hkx : k ≠ x := by
            intro hkx
            rw [← hkx, hg] at hxk
            simp at hxk
          simpa [assocGet_assocErase_ne k x c.cache hkx] using hg
      have hkd1 : k ∉ c.evictIfFull.dll := fun hm => by
        have := (h1.mem k).mpr hm
        rw [hkc1] at this
        simp at this
      constructor
      · simpa [List.nodup_cons, ← assocGet_eq_none_iff] using ⟨hkc1, h1.nodupK⟩
      · exact List.Nodup.cons hkd1 h1.nodupD
      · intro j
        by_cases hj : j = k
        · subst hj
          simp [assocGet]
        · have hkj : ¬ k = j := fun hh => hj hh.symm
          simp [assocGet, hkj, hj, h1.mem j]
      · simp [h1.len]

theorem wf_get {c : LRUCache} (h : c.WF) (k : String) : ((c.get k).2).WF := by
  unfold LRUCache.get
  cases hg : assocGet k c.cache with
  | none => exact h
  | some w =>
      have hkd : k ∈ c.dll := (h.mem k).mp (by rw [hg]; rfl)
      constructor
      · exact h.nodupK
      · exact List.Nodup.cons (h.nodupD.not_mem_erase) (h.nodupD.erase k)
      · intro j
        by_cases hj : j = k
        · subst hj
          simp [hg]
        · rw [h.mem j]
          simp [hj, h.nodupD.mem_erase_iff]
      · have hlen1 : 1 ≤ c.dll.length := List.length_pos.mpr (List.ne_nil_of_mem hkd)
        simp only [List.length_cons, List.length_erase_of_mem hkd, h.len]
        omega

theorem wf_delete {c : LRUCache} (h : c.WF) (k : String) : ((c.delete k).2).WF := by
  unfold LRUCache.delete
  cases hg : assocGet k c.cache with
  | none => exact h
  | some w =>
      have hkd : k ∈ c.dll := (h.mem k).mp (by rw [hg]; rfl)
      have hkk : k ∈ assocKeys c.cache := (assocGet_isSome_iff k c.cache).mp (by rw [hg]; rfl)
      constructor
      · rw [assocKeys_assocErase]
        exact h.nodupK.erase k
      · exact h.nodupD.erase k
      · intro j
        by_cases hj : j = k
        · subst hj
          simp [assocGet_assocErase_self j c.cache h.nodupK, h.nodupD.not_mem_erase]
        · rw [assocGet_assocErase_ne j k c.cache hj, h.mem j]
          simp [hj, h.nodupD.mem_erase_iff]
      · simp [length_assocErase_of_mem k c.cache hkk, h.len, List.length_erase_of_mem hkd]

/-- The dict is untouched by a get; only the recency list moves. -/
theorem get_cache_eq (c : LRUCache) (k : String) :
    ((c.get k).2).cache = c.cache ∧ ((c.get k).2).capacity = c.capacity := by
  unfold LRUCache.get
  cases hg : assocGet k c.cache <;> simp

theorem capacity_put (c : LRUCache) (k v : String) : (c.put k v).capacity = c.capacity := by
  unfold LRUCache.put
  cases hg : assocGet k c.cache with
  | some w => rfl
  | none => simp [capacity_evictIfFull]

theorem capacity_delete (c : LRUCache) (k : String) : ((c.delete k).2).capacity = c.capacity := by
  unfold LRUCache.delete
  cases hg : assocGet k c.cache <;> rfl

/-- Bounded occupancy is preserved by put whenever the capacity is at
least one. -/
theorem size_put_le {c : LRUCache} (h : c.WF) (hcap : 1 ≤ c.capacity)
    (hle : (c.cache.length : Int) ≤ c.capacity) (k v : String) :
    ((c.put k v).cache.length : Int) ≤ c.capacity := by
  unfold LRUCache.put
  cases hg : assocGet k c.cache with
  | some w => simpa [length_assocSet] using hle
  | none =>
      have hlt : (c.evictIfFull.cache.length : Int) < c.capacity := by
        rcases evictIfFull_eq c with ⟨he, hc | hc⟩ | ⟨ys, x, hdll, hge, he⟩
        · rw [he]; exact hc
        · have h0 : c.cache.length = 0 := by
            rw [h.len, hc]
            rfl
          rw [he]
          omega
        · have hxd : x ∈ c.dll := by rw [hdll]; simp
          have hxk : x ∈ assocKeys c.cache := (assocGet_isSome_iff x c.cache).mp ((h.mem x).mpr hxd)
          have h1 : (assocErase x c.cache).length = c.cache.length - 1 :=
            length_assocErase_of_mem x c.cache hxk
          have h2 : 1 ≤ c.cache.length := by
            rcases List.exists_mem_of_ne_nil c.cache (by
              intro hnil
              rw [hnil] at hxk
              simp at hxk) with ⟨a, _⟩
            exact List.length_pos.mpr (by
              intro hnil
              rw [hnil] at hxk
              simp at hxk)
          rw [he]
          simp only [h1]
          omega
      simp only [List.length_cons]
      push_cast
      omega

/-- Characterization of put on a present key. -/
theorem put_cache_present {c : LRUCache} {k : String} (v : String)
    (h : (assocGet k c.cache).isSome) : (c.put k v).cache = assocSet k v c.cache := by
  unfold LRUCache.put
  cases hg : assocGet k c.cache with
  | some w => rfl
  | none => rw [hg] at h; simp at h

/-- Characterization of put on an absent key. -/
theorem put_cache_absent {c : LRUCache} {k : String} (v : String)
    (h : assocGet k c.cache = none) : (c.put k v).cache = (k, v) :: c.evictIfFull.cache := by
  unfold LRUCache.put
  cases hg : assocGet k c.cache with
  | some w => rw [hg] at h; simp at h
  | none => rfl

/-- Characterization of delete on a present key. -/
theorem delete_eq_present {c : LRUCache} {k : String}
    (h : (assocGet k c.cache).isSome) :
    c.delete k = (true, { c with cache := assocErase k c.cache, dll := c.dll.erase k }) := by
  unfold LRUCache.delete
  cases hg : assocGet k c.cache with
  | some w => rfl
  | none => rw [hg] at h; simp at h

/-- Characterization of delete on an absent key. -/
theorem delete_eq_absent {c : LRUCache} {k : String}
    (h : assocGet k c.cache = none) : c.delete k = (false, c) := by
  unfold LRUCache.delete
  cases hg : assocGet k c.cache with
  | some w => rw [hg] at h; simp at h
  | none => rfl

/-- Delete never grows the dict. -/
theorem length_delete_le (c : LRUCache) (k : String) :
    ((c.delete k).2).cache.length ≤ c.cache.length := by
  cases hg : assocGet k c.cache with
  | some w =>
      rw [delete_eq_present (by rw [hg]; rfl)]
      have hm : k ∈ assocKeys c.cache := (assocGet_isSome_iff k c.cache).mp (by rw [hg]; rfl)
      simp [length_assocErase_of_mem k c.cache hm]
  | none => rw [delete_eq_absent hg]


theorem stepLRU_capacity (c : LRUCache) (op : COp) : (stepLRU c op).capacity = c.capacity := by
  cases op with
  | put k v => exact capacity_put c k v
  | get k => exact (get_cache_eq c k).2
  | del k => exact capacity_delete c k

theorem stepLRU_wf {c : LRUCache} (h : c.WF) (op : COp) : (stepLRU c op).WF := by
  cases op with
  | put k v => exact wf_put h k v
  | get k => exact wf_get h k
  | del k => exact wf_delete h k

theorem stepLRU_size_le {c : LRUCache} (h : c.WF) (hcap : 1 ≤ c.capacity)
    (hle : (c.cache.length : Int) ≤ c.capacity) (op : COp) :
    ((stepLRU c op).cache.length : Int) ≤ c.capacity := by
  cases op with
  | put k v => exact size_put_le h hcap hle k v
  | get k =>
      rw [show (stepLRU c (COp.get k)).cache = c.cache from (get_cache_eq c k).1]
      exact hle
  | del k =>
      have := length_delete_le c k
      have : ((stepLRU c (COp.del k)).cache.length : Int) ≤ (c.cache.length : Int) := by
        exact_mod_cast this
      omega

/-- The main run invariant of the cache: well-formedness is preserved, the
capacity never changes, and with capacity at least one the occupancy stays
within capacity. -/
theorem runLRU_inv : ∀ (ops : List COp) (c : LRUCache), c.WF → 1 ≤ c.capacity →
    (c.cache.length : Int) ≤ c.capacity →
    (runLRU c ops).WF ∧ (runLRU c ops).capacity = c.capacity ∧
      ((runLRU c ops).cache.length : Int) ≤ c.capacity := by
  intro ops
  induction ops with
  | nil => exact fun c h _ hle => ⟨h, rfl, hle⟩
  | cons op rest ih =>
      intro c h hcap hle
      have hstep := ih (stepLRU c op) (stepLRU_wf h op)
        (by rw [stepLRU_capacity]; exact hcap)
        (by rw [stepLRU_capacity]; exact stepLRU_size_le h hcap hle op)
      refine ⟨hstep.1, ?_, ?_⟩
      · rw [show runLRU c (op :: rest) = runLRU (stepLRU c op) rest from rfl,
          hstep.2.1, stepLRU_capacity]
      · rw [show runLRU c (op :: rest) = runLRU (stepLRU c op) rest from rfl]
        have := hstep.2.2
        rw [stepLRU_capacity] at this
        exact this

/-! ## Simulation between the live synchronous store and WAL replay -/

/-- Replaying a SET record is a cache put. -/
theorem replayRec_set (c : LRUCache) (k v : String) :
    replayRec c ⟨"SET", k, some v⟩ = c.put k v := by
  simp [replayRec]

/-- Replaying a DEL record is a cache delete. -/
theorem replayRec_del (c : LRUCache) (k : String) :
    replayRec c ⟨"DEL", k, none⟩ = (c.delete k).2 := by
  simp [replayRec]

theorem replayRecs_append (C : Int) (l1 l2 : List SRec) :
    replayRecs C (l1 ++ l2) = l2.foldl replayRec (replayRecs C l1) := by
  simp [replayRecs, List.foldl_append]


theorem stepStore_set (st : KeyValueStore) (k v : String) :
    stepStore st (Op.set k v) =
      { cache := st.cache.put k v, log := st.log ++ [⟨"SET", k, some v⟩] } := rfl

theorem stepStore_get (st : KeyValueStore) (k : String) :
    stepStore st (Op.get k) = { st with cache := (st.cache.get k).2 } := by
  unfold stepStore KeyValueStore.getOp
  cases h : st.cache.get k with
  | mk a b => simp [h]

theorem stepStore_del (st : KeyValueStore) (k : String) :
    stepStore st (Op.del k) =
      { cache := (st.cache.delete k).2,
        log := if (st.cache.delete k).1 then st.log ++ [⟨"DEL", k, none⟩] else st.log } := by
  unfold stepStore KeyValueStore.delete
  cases h : st.cache.delete k with
  | mk a b => simp [h]

theorem stepStore_del_present {st : KeyValueStore} {k : String}
    (h : (assocGet k st.cache.cache).isSome) :
    stepStore st (Op.del k) =
      { cache := (st.cache.delete k).2, log := st.log ++ [⟨"DEL", k, none⟩] } := by
  rw [stepStore_del, delete_eq_present h]
  rfl

theorem stepStore_del_absent {st : KeyValueStore} {k : String}
    (h : assocGet k st.cache.cache = none) :
    stepStore st (Op.del k) = st := by
  rw [stepStore_del, delete_eq_absent h]
  rfl

/-- The simulation argument for the amended WAL round-trip: along any run
that never triggers a capacity eviction, the replay of the log stays in
lockstep with the live cache, binding for binding. -/
theorem sim_run (C : Int) (hcap : 1 ≤ C) :
    ∀ (ops : List Op) (st : KeyValueStore),
    st.cache.capacity = C →
    (st.cache.cache.length : Int) ≤ C →
    Sim st (replayRecs C st.log) →
    evictFree st ops = true →
    Sim (runStore st ops) (replayRecs C (runStore st ops).log) ∧
      (runStore st ops).cache.capacity = C ∧
      ((runStore st ops).cache.cache.length : Int) ≤ C := by
  intro ops
  induction ops with
  | nil => exact fun st h1 h2 h3 _ => ⟨h3, h1, h2⟩
  | cons op rest ih =>
      intro st hC hle hsim hev
      simp only [evictFree, Bool.and_eq_true] at hev
      obtain ⟨hhead, htail⟩ := hev
      have hrun : runStore st (op :: rest) = runStore (stepStore st op) rest := rfl
      rw [hrun]
      set r := replayRecs C st.log with hr
      cases op with
      | get k =>
          rw [stepStore_get] at htail ⊢
          refine ih _ ?_ ?_ ?_ htail
          · show (st.cache.get k).2.capacity = C
            rw [(get_cache_eq st.cache k).2, hC]
          · show ((st.cache.get k).2.cache.length : Int) ≤ C
            rw [(get_cache_eq st.cache k).1]
            exact hle
          · constructor
            · exact wf_get hsim.wfL k
            · exact hsim.wfR
            · show r.capacity = (st.cache.get k).2.capacity
              rw [hsim.cap, (get_cache_eq st.cache k).2]
            · intro j
              show assocGet j r.cache = assocGet j (st.cache.get k).2.cache
              rw [(get_cache_eq st.cache k).1]
              exact hsim.maps j
            · show r.cache.length = (st.cache.get k).2.cache.length
              rw [(get_cache_eq st.cache k).1]
              exact hsim.len
      | set k v =>
          have hhead2 : (!((assocGet k st.cache.cache).isNone &&
              (decide ((st.cache.cache.length : Int) ≥ st.cache.capacity)))) = true := hhead
          rw [stepStore_set] at htail ⊢
          have hlog : replayRecs C (st.log ++ [⟨"SET", k, some v⟩]) = r.put k v := by
            rw [replayRecs_append, ← hr]
            simp [replayRec_set]
          refine ih _ ?_ ?_ ?_ htail
          · show (st.cache.put k v).capacity = C
            rw [capacity_put, hC]
          · show ((st.cache.put k v).cache.length : Int) ≤ C
            exact hC ▸ size_put_le hsim.wfL (hC ▸ hcap) (hC ▸ hle) k v
          · show Sim _ (replayRecs C (st.log ++ [⟨"SET", k, some v⟩]))
            rw [hlog]
            cases hp : assocGet k st.cache.cache with
            | some w =>
                have hpr : assocGet k r.cache = some w := by rw [hsim.maps k, hp]
                have hpS : (assocGet k st.cache.cache).isSome := by rw [hp]; rfl
                have hprS : (assocGet k r.cache).isSome := by rw [hpr]; rfl
                constructor
                · exact wf_put hsim.wfL k v
                · exact wf_put hsim.wfR k v
                · show (r.put k v).capacity = (st.cache.put k v).capacity
                  rw [capacity_put, capacity_put, hsim.cap]
                · intro j
                  show assocGet j (r.put k v).cache = assocGet j (st.cache.put k v).cache
                  rw [put_cache_present v hpS, put_cache_present v hprS]
                  by_cases hj : j = k
                  · subst hj
                    rw [assocGet_assocSet_self j v _ hprS, assocGet_assocSet_self j v _ hpS]
                  · rw [assocGet_assocSet_ne j k v _ hj, assocGet_assocSet_ne j k v _ hj]
                    exact hsim.maps j
                · show (r.put k v).cache.length = (st.cache.put k v).cache.length
                  rw [put_cache_present v hpS, put_cache_present v hprS,
                    length_assocSet, length_assocSet]
                  exact hsim.len
            | none =>
                have hpr : assocGet k r.cache = none := by rw [hsim.maps k, hp]
                have hlt : (st.cache.cache.length : Int) < st.cache.capacity := by
                  rw [hp] at hhead2
                  simp at hhead2
                  omega
                have hltr : (r.cache.length : Int) < r.capacity := by
                  rw [hsim.len, hsim.cap]
                  exact hlt
                have heL : st.cache.evictIfFull = st.cache := evictIfFull_of_lt _ hlt
                have heR : r.evictIfFull = r := evictIfFull_of_lt _ hltr
                constructor
                · exact wf_put hsim.wfL k v
                · exact wf_put hsim.wfR k v
                · show (r.put k v).capacity = (st.cache.put k v).capacity
                  rw [capacity_put, capacity_put, hsim.cap]
                · intro j
                  show assocGet j (r.put k v).cache = assocGet j (st.cache.put k v).cache
                  rw [put_cache_absent v hp, put_cache_absent v hpr, heL, heR]
                  by_cases hj : j = k
                  · subst hj
                    simp [assocGet]
                  · have hkj : ¬ k = j := fun hh => hj hh.symm
                    simp only [assocGet, if_neg hkj]
                    exact hsim.maps j
                · show (r.put k v).cache.length = (st.cache.put k v).cache.length
                  rw [put_cache_absent v hp, put_cache_absent v hpr, heL, heR]
                  simp [hsim.len]
      | del k =>
          cases hp : assocGet k st.cache.cache with
          | some w =>
              have hpS : (assocGet k st.cache.cache).isSome := by rw [hp]; rfl
              have hpr : assocGet k r.cache = some w := by rw [hsim.maps k, hp]
              have hprS : (assocGet k r.cache).isSome := by rw [hpr]; rfl
              have hkk : k ∈ assocKeys st.cache.cache :=
                (assocGet_isSome_iff k st.cache.cache).mp hpS
              have hkkr : k ∈ assocKeys r.cache :=
                (assocGet_isSome_iff k r.cache).mp hprS
              have hlog : replayRecs C (st.log ++ [⟨"DEL", k, none⟩]) = (r.delete k).2 := by
                rw [replayRecs_append, ← hr]
                simp [replayRec_del]
              rw [stepStore_del_present hpS] at htail ⊢
              refine ih _ ?_ ?_ ?_ htail
              · show ((st.cache.delete k).2).capacity = C
                rw [capacity_delete, hC]
              · show (((st.cache.delete k).2).cache.length : Int) ≤ C
                have h1 := length_delete_le st.cache k
                have h2 : (((st.cache.delete k).2).cache.length : Int)
                    ≤ (st.cache.cache.length : Int) := by exact_mod_cast h1
                omega
              · show Sim _ (replayRecs C (st.log ++ [⟨"DEL", k, none⟩]))
                rw [hlog]
                constructor
                · exact wf_delete hsim.wfL k
                · exact wf_delete hsim.wfR k
                · show ((r.delete k).2).capacity = ((st.cache.delete k).2).capacity
                  rw [capacity_delete, capacity_delete, hsim.cap]
                · intro j
                  show assocGet j ((r.delete k).2).cache = assocGet j ((st.cache.delete k).2).cache
                  rw [delete_eq_present hprS, delete_eq_present hpS]
                  show assocGet j (assocErase k r.cache) = assocGet j (assocErase k st.cache.cache)
                  by_cases hj : j = k
                  · subst hj
                    rw [assocGet_assocErase_self j r.cache hsim.wfR.nodupK,
                      assocGet_assocErase_self j st.cache.cache hsim.wfL.nodupK]
                  · rw [assocGet_assocErase_ne j k r.cache hj,
                      assocGet_assocErase_ne j k st.cache.cache hj]
                    exact hsim.maps j
                · show ((r.delete k).2).cache.length = ((st.cache.delete k).2).cache.length
                  rw [delete_eq_present hprS, delete_eq_present hpS]
                  show (assocErase k r.cache).length = (assocErase k st.cache.cache).length
                  rw [length_assocErase_of_mem k r.cache hkkr,
                    length_assocErase_of_mem k st.cache.cache hkk, hsim.len]
          | none =>
              rw [stepStore_del_absent hp] at htail ⊢
              exact ih st hC hle hsim htail
/-- Replaying the empty log gives the fresh cache. -/
theorem sim_empty (C : Int) : Sim (emptyStore C) (replayRecs C (emptyStore C).log) := by
  constructor
  · exact wf_empty C
  · exact wf_empty C
  · rfl
  · intro j
    rfl
  · rfl

/-- A put always leaves the key bound to the new value. -/
theorem put_get_self (c : LRUCache) (k v : String) :
    assocGet k (c.put k v).cache = some v := by
  cases hp : assocGet k c.cache with
  | some w =>
      rw [put_cache_present v (by rw [hp]; rfl)]
      exact assocGet_assocSet_self k v c.cache (by rw [hp]; rfl)
  | none =>
      rw [put_cache_absent v hp]
      simp [assocGet]

/-- Unfolding of the store-level delete. -/
theorem store_delete_eq (st : KeyValueStore) (k : String) :
    st.delete k = ((st.cache.delete k).1,
      { cache := (st.cache.delete k).2,
        log := if (st.cache.delete k).1 then st.log ++ [⟨"DEL", k, none⟩] else st.log }) := by
  unfold KeyValueStore.delete
  cases h : st.cache.delete k with
  | mk a b => simp [h]

/-! ## Claim theorems for the synchronous store -/

/-- c1 (counterexample): the WAL round-trip claim fails as stated.  In a
capacity-2 store, after set a, set b, get a, set c the live cache holds
exactly the keys c and a (the get refreshed a, so b was evicted), but
recovery from the written log file yields a cache holding the keys c and
b: gets are not logged, so replay evicts a different victim. -/
theorem c1_round_trip_cex :
    (runStore (emptyStore 2) [Op.set "a" "1", Op.set "b" "2", Op.get "a",
      Op.set "c" "3"]).cache.cache = [("c", "3"), ("a", "1")] ∧
    recoverFile 2 (fileOf (runStore (emptyStore 2) [Op.set "a" "1", Op.set "b" "2",
      Op.get "a", Op.set "c" "3"]).log) = Except.ok ⟨2, [("c", "3"), ("b", "2")], ["c", "b"]⟩ :=
  ⟨by decide, rfl⟩

/-- c1 (amended): for a fresh store of capacity at least one, if the run
of set, get and delete operations never triggers a capacity eviction, then
replaying the logged records in order into an empty cache of the same
capacity reconstructs exactly the live key-value bindings; interleaved
gets, which only reorder recency, do not break the round-trip. -/
theorem c1_round_trip (C : Int) (ops : List Op) (hcap : 1 ≤ C)
    (hev : evictFree (emptyStore C) ops = true) (k : String) :
    assocGet k (replayRecs C (runStore (emptyStore C) ops).log).cache
      = assocGet k (runStore (emptyStore C) ops).cache.cache := by
  have h := sim_run C hcap ops (emptyStore C) rfl (by simp [emptyStore, emptyLRU]; omega)
    (sim_empty C) hev
  exact h.1.maps k

/-- c1 (witness): the amended round-trip at a concrete eviction-free run
with an interleaved get. -/
theorem c1_round_trip_witness :
    (1 : Int) ≤ 2 ∧
    evictFree (emptyStore 2) [Op.set "a" "1", Op.get "a", Op.del "a", Op.set "b" "2"] = true ∧
    assocGet "b" (replayRecs 2 (runStore (emptyStore 2) [Op.set "a" "1", Op.get "a",
        Op.del "a", Op.set "b" "2"]).log).cache
      = assocGet "b" (runStore (emptyStore 2) [Op.set "a" "1", Op.get "a",
        Op.del "a", Op.set "b" "2"]).cache.cache :=
  ⟨by decide, by decide,
    c1_round_trip 2 [Op.set "a" "1", Op.get "a", Op.del "a", Op.set "b" "2"]
      (by decide) (by decide) "b"⟩

/-- c2 (counterexample): the corrupt-line tolerance claim fails for the
synchronous store.  A syntactically invalid line between two valid records
makes KeyValueStore recovery raise (the three-field unpack of
`line.strip().split("|")` fails), so the valid records are not
recovered. -/
theorem c2_corrupt_line_cex :
    recoverFile 2 "SET|a|1\ngarbage\nSET|b|2\n" = Except.error () := rfl

/-- c2 (amended): the asynchronous store's recovery does skip a line whose
JSON parse or key lookup raises, and the skipped line has no effect at
all: recovery of any line sequence with an unparseable line inserted
equals recovery of the sequence without it. -/
theorem c2_corrupt_line_skip (now : Rat) (cap : Int) (pre post : List (Option JEntry)) :
    recoverLines now cap (pre ++ none :: post) = recoverLines now cap (pre ++ post) := by
  unfold recoverLines
  rw [List.foldl_append, List.foldl_append, List.foldl_cons]

/-- c3: starting from an empty cache of integer capacity C > 0, after any
sequence of put, get and delete operations the size is at most C and the
dict and the recency list hold the same number of entries. -/
theorem c3_capacity_invariant (C : Int) (ops : List COp) (hcap : 0 < C) :
    ((runLRU (emptyLRU C) ops).size : Int) ≤ C ∧
      (runLRU (emptyLRU C) ops).cache.length = (runLRU (emptyLRU C) ops).dll.length := by
  have h := runLRU_inv ops (emptyLRU C) (wf_empty C)
    (by show (1 : Int) ≤ C; omega) (by simp [emptyLRU]; omega)
  exact ⟨h.2.2, h.1.len⟩

/-- c3 (witness): the capacity invariant at a concrete overfull run. -/
theorem c3_capacity_invariant_witness :
    (0 : Int) < 2 ∧
    (((runLRU (emptyLRU 2) [COp.put "a" "1", COp.put "b" "2", COp.put "c" "3",
        COp.get "a", COp.del "b"]).size : Int) ≤ 2 ∧
      (runLRU (emptyLRU 2) [COp.put "a" "1", COp.put "b" "2", COp.put "c" "3",
        COp.get "a", COp.del "b"]).cache.length
        = (runLRU (emptyLRU 2) [COp.put "a" "1", COp.put "b" "2", COp.put "c" "3",
          COp.get "a", COp.del "b"]).dll.length) :=
  ⟨by decide, c3_capacity_invariant 2 [COp.put "a" "1", COp.put "b" "2", COp.put "c" "3",
    COp.get "a", COp.del "b"] (by decide)⟩

/-- c6: in a capacity-2 store, after set a 1, set b 2, set c 3, a get of a
returns the absent result, b returns "2" and c returns "3"; recovering
from the written WAL file reproduces exactly the live keys c and b. -/
theorem c6_concrete_scenario :
    ((runStore (emptyStore 2) [Op.set "a" "1", Op.set "b" "2", Op.set "c" "3"]).getOp "a").1
      = none ∧
    ((((runStore (emptyStore 2) [Op.set "a" "1", Op.set "b" "2",
      Op.set "c" "3"]).getOp "a").2).getOp "b").1 = some "2" ∧
    ((((((runStore (emptyStore 2) [Op.set "a" "1", Op.set "b" "2",
      Op.set "c" "3"]).getOp "a").2).getOp "b").2).getOp "c").1 = some "3" ∧
    recoverFile 2 (fileOf (runStore (emptyStore 2) [Op.set "a" "1", Op.set "b" "2",
      Op.set "c" "3"]).log) = Except.ok ⟨2, [("c", "3"), ("b", "2")], ["c", "b"]⟩ :=
  ⟨by decide, by decide, by decide, rfl⟩

/-- c7: when the WAL append raises an I/O error, every set — of a new key
as much as of an existing one — still returns the failure to the caller
with the log unchanged and with the in-memory cache already holding the
new value; a delete that removed a key (the only kind that attempts a DEL
append at all) likewise returns the failure with the log unchanged and
the removal kept. -/
theorem c7_append_failure_keeps_mutation (st : KeyValueStore) (k v : String) :
    ((st.setF k v false).2 = Except.error () ∧
      (st.setF k v false).1.log = st.log ∧
      assocGet k (st.setF k v false).1.cache.cache = some v) ∧
    ((assocGet k st.cache.cache).isSome →
      (st.deleteF k false).2 = Except.error () ∧
        (st.deleteF k false).1.log = st.log ∧
        (st.deleteF k false).1.cache = (st.cache.delete k).2) := by
  constructor
  · exact ⟨rfl, rfl, put_get_self st.cache k v⟩
  · intro hk
    have hd := delete_eq_present (c := st.cache) (k := k) hk
    unfold KeyValueStore.deleteF
    rw [hd]
    exact ⟨rfl, rfl, rfl⟩

/-- c7 (witness): the failed-append behavior at a concrete store holding
only the key a — the set half at the absent key b (a fresh insert), the
delete half at the present key a. -/
theorem c7_append_failure_keeps_mutation_witness :
    (((KeyValueStore.mk (LRUCache.mk 2 [("a", "1")] ["a"]) []).setF "b" "9" false).2
        = Except.error () ∧
      ((KeyValueStore.mk (LRUCache.mk 2 [("a", "1")] ["a"]) []).setF "b" "9" false).1.log
        = (KeyValueStore.mk (LRUCache.mk 2 [("a", "1")] ["a"]) []).log ∧
      assocGet "b" ((KeyValueStore.mk (LRUCache.mk 2 [("a", "1")] ["a"]) []).setF "b" "9"
          false).1.cache.cache = some "9") ∧
     (((KeyValueStore.mk (LRUCache.mk 2 [("a", "1")] ["a"]) []).deleteF "a" false).2
        = Except.error () ∧
      ((KeyValueStore.mk (LRUCache.mk 2 [("a", "1")] ["a"]) []).deleteF "a" false).1.log
        = (KeyValueStore.mk (LRUCache.mk 2 [("a", "1")] ["a"]) []).log ∧
      ((KeyValueStore.mk (LRUCache.mk 2 [("a", "1")] ["a"]) []).deleteF "a" false).1.cache
        = ((KeyValueStore.mk (LRUCache.mk 2 [("a", "1")] ["a"]) []).cache.delete "a").2) :=
  ⟨(c7_append_failure_keeps_mutation
      (KeyValueStore.mk (LRUCache.mk 2 [("a", "1")] ["a"]) []) "b" "9").1,
    (c7_append_failure_keeps_mutation
      (KeyValueStore.mk (LRUCache.mk 2 [("a", "1")] ["a"]) []) "a" "9").2 (by decide)⟩

/-- c8: delete returns true exactly when the key is present; a removed key
is gone from both the dict and the recency list and exactly one DEL record
is appended; a delete of an absent key returns false and leaves the whole
store, log included, unchanged. -/
theorem c8_delete_semantics (st : KeyValueStore) (k : String)
    (h1 : (assocKeys st.cache.cache).Nodup) (h2 : st.cache.dll.Nodup) :
    ((st.delete k).1 = true ↔ (assocGet k st.cache.cache).isSome) ∧
    ((assocGet k st.cache.cache).isSome →
      assocGet k (st.delete k).2.cache.cache = none ∧
      k ∉ (st.delete k).2.cache.dll ∧
      (st.delete k).2.log = st.log ++ [⟨"DEL", k, none⟩]) ∧
    (assocGet k st.cache.cache = none →
      (st.delete k).2 = st ∧ (st.delete k).1 = false) := by
  cases hp : assocGet k st.cache.cache with
  | some w =>
      have hpS : (assocGet k st.cache.cache).isSome := by rw [hp]; rfl
      have hd := delete_eq_present (c := st.cache) (k := k) hpS
      rw [store_delete_eq, hd]
      refine ⟨by simp [hp], fun _ => ⟨?_, ?_, ?_⟩, fun hno => ?_⟩
      · exact assocGet_assocErase_self k st.cache.cache h1
      · exact h2.not_mem_erase
      · rfl
      · exact Option.noConfusion hno
  | none =>
      have hd := delete_eq_absent (c := st.cache) (k := k) hp
      rw [store_delete_eq, hd]
      refine ⟨by simp [hp], fun hs => ?_, fun _ => ⟨rfl, rfl⟩⟩
      simp at hs

/-- c8 (witness): delete semantics at a concrete store holding the key
a. -/
theorem c8_delete_semantics_witness :
    (assocKeys (KeyValueStore.mk (LRUCache.mk 2 [("a", "1")] ["a"]) []).cache.cache).Nodup ∧
    (KeyValueStore.mk (LRUCache.mk 2 [("a", "1")] ["a"]) []).cache.dll.Nodup ∧
    ((((KeyValueStore.mk (LRUCache.mk 2 [("a", "1")] ["a"]) []).delete "a").1 = true ↔
        (assocGet "a" (KeyValueStore.mk (LRUCache.mk 2 [("a", "1")] ["a"]) []).cache.cache).isSome) ∧
      ((assocGet "a" (KeyValueStore.mk (LRUCache.mk 2 [("a", "1")] ["a"]) []).cache.cache).isSome →
        assocGet "a" ((KeyValueStore.mk (LRUCache.mk 2 [("a", "1")] ["a"]) []).delete
          "a").2.cache.cache = none ∧
        "a" ∉ ((KeyValueStore.mk (LRUCache.mk 2 [("a", "1")] ["a"]) []).delete "a").2.cache.dll ∧
        ((KeyValueStore.mk (LRUCache.mk 2 [("a", "1")] ["a"]) []).delete "a").2.log
          = (KeyValueStore.mk (LRUCache.mk 2 [("a", "1")] ["a"]) []).log ++ [⟨"DEL", "a", none⟩]) ∧
      (assocGet "a" (KeyValueStore.mk (LRUCache.mk 2 [("a", "1")] ["a"]) []).cache.cache = none →
        ((KeyValueStore.mk (LRUCache.mk 2 [("a", "1")] ["a"]) []).delete "a").2
          = (KeyValueStore.mk (LRUCache.mk 2 [("a", "1")] ["a"]) []) ∧
        ((KeyValueStore.mk (LRUCache.mk 2 [("a", "1")] ["a"]) []).delete "a").1 = false)) :=
  ⟨by decide, by decide,
    c8_delete_semantics (KeyValueStore.mk (LRUCache.mk 2 [("a", "1")] ["a"]) [])
      "a" (by decide) (by decide)⟩

/-- c9: the pipe-delimited line format is injectable.  A set of the key
containing a pipe succeeds (the store caches it and appends the record),
the written line is indistinguishable from a four-field line, and the
recovery of the store's own log file raises, so the whole store fails to
recover. -/
theorem c9_line_format_injection :
    assocGet "a|b" ((emptyStore 10).set "a|b" "1").cache.cache = some "1" ∧
    fileOf ((emptyStore 10).set "a|b" "1").log = "SET|a|b|1\n" ∧
    recoverFile 10 (fileOf ((emptyStore 10).set "a|b" "1").log) = Except.error () :=
  ⟨by decide, by decide, rfl⟩

/-- c10: with capacity 0 (or any nonpositive capacity) the put of a new
key into the empty cache still inserts it: the eviction attempt finds an
empty recency list, removes nothing, and the new node is added anyway, so
the size becomes 1 and exceeds the capacity. -/
theorem c10_zero_capacity_overflow (cap : Int) (hcap : cap ≤ 0) :
    (emptyLRU cap).put "a" "1" = ⟨cap, [("a", "1")], ["a"]⟩ ∧
      cap < (((emptyLRU cap).put "a" "1").size : Int) := by
  have he : (emptyLRU cap).evictIfFull = emptyLRU cap := by
    unfold LRUCache.evictIfFull
    rw [if_pos (by simp [emptyLRU]; omega)]
    rfl
  have heq : (emptyLRU cap).put "a" "1" = ⟨cap, [("a", "1")], ["a"]⟩ := by
    show ({ (emptyLRU cap).evictIfFull with
      cache := ("a", "1") :: (emptyLRU cap).evictIfFull.cache,
      dll := "a" :: (emptyLRU cap).evictIfFull.dll } : LRUCache) = ⟨cap, [("a", "1")], ["a"]⟩
    rw [he]
    rfl
  refine ⟨heq, ?_⟩
  rw [heq]
  show cap < ((1 : Nat) : Int)
  omega

/-- c10 (witness): the overflow at capacity exactly 0. -/
theorem c10_zero_capacity_overflow_witness :
    (0 : Int) ≤ 0 ∧
    ((emptyLRU 0).put "a" "1" = ⟨0, [("a", "1")], ["a"]⟩ ∧
      (0 : Int) < (((emptyLRU 0).put "a" "1").size : Int)) :=
  ⟨by decide, c10_zero_capacity_overflow 0 (by decide)⟩

/-! ## Asynchronous store lemmas and claims -/

/-- An asynchronous put always leaves the key bound at the front with the
absolute expiry computed from the provided TTL. -/
theorem async_put_get_self (c : AsyncCache) (now : Rat) (k : String) (v : Option String)
    (ttl : Option Rat) :
    assocGet k (AsyncCache.put c now k v ttl).entries
      = some (v, ttl.map (fun t => now + t)) := by
  unfold AsyncCache.put
  split <;> simp [assocGet]

/-- An asynchronous delete removes the key when its keys are distinct. -/
theorem async_delete_not_mem (c : AsyncCache) (k : String)
    (hnd : (assocKeys c.entries).Nodup) :
    assocGet k ((c.delete k).2).entries = none := by
  unfold AsyncCache.delete
  by_cases h : (assocGet k c.entries).isSome
  · rw [if_pos h]
    exact assocGet_assocErase_self k c.entries hnd
  · rw [if_neg h]
    exact Option.not_isSome_iff_eq_none.mp h

/-- c4 (counterexample): a replayed SET record whose recorded ttl field is
0 carries a TTL, and its remaining TTL 0 - (now - timestamp) is
nonpositive at recovery time 10, so by the claim the record is discarded
and the key must not reappear; but `if ttl:` is falsy at zero, so recovery
takes the no-TTL path and inserts the key with no expiry at all. -/
theorem c4_recovery_ttl_cex :
    recoverLines 10 100 [some ⟨some 0, "SET", "k", some "v", some 0⟩]
      = ⟨100, [("k", (some "v", none))]⟩ ∧
    (0 : Rat) - (10 - 0) ≤ 0 := by
  constructor
  · norm_num [recoverLines, applyEntry, pyTruthy, AsyncCache.put, assocGet, emptyAsync]
  · norm_num

/-- c4 (amended): during recovery a SET record with a nonzero TTL t and
timestamp ts is discarded, leaving the cache untouched, when the remaining
TTL `t - (now - ts)` is nonpositive, and otherwise inserts the key with
exactly that remaining TTL (stored as the absolute expiry now + remaining);
a SET record with no TTL field, or with the falsy TTL 0, inserts the key
with no expiry; a DEL record removes the key. -/
theorem c4_recovery_ttl (now ts t : Rat) (k : String) (v : Option String)
    (c : AsyncCache) (hnd : (assocKeys c.entries).Nodup) :
    (t ≠ 0 → t - (now - ts) ≤ 0 →
      applyEntry now c ⟨some ts, "SET", k, v, some t⟩ = c) ∧
    (t ≠ 0 → 0 < t - (now - ts) →
      assocGet k (applyEntry now c ⟨some ts, "SET", k, v, some t⟩).entries
        = some (v, some (now + (t - (now - ts))))) ∧
    assocGet k (applyEntry now c ⟨some ts, "SET", k, v, none⟩).entries = some (v, none) ∧
    assocGet k (applyEntry now c ⟨some ts, "SET", k, v, some 0⟩).entries = some (v, none) ∧
    assocGet k (applyEntry now c ⟨some ts, "DEL", k, v, some t⟩).entries = none := by
  refine ⟨?_, ?_, ?_, ?_, ?_⟩
  · intro ht hle
    simp [applyEntry, pyTruthy, ht, hle]
  · intro ht hlt
    have hn : ¬ (t - (now - ts) ≤ 0) := not_le.mpr hlt
    simp [applyEntry, pyTruthy, ht, hn, async_put_get_self]
  · simp [applyEntry, pyTruthy, async_put_get_self]
  · simp [applyEntry, pyTruthy, async_put_get_self]
  · have hda : ¬ ("DEL" : String) = "SET" := by decide
    simp [applyEntry, hda, async_delete_not_mem c k hnd]

/-- c4 (witness): the amended recovery TTL policy at a concrete cache. -/
theorem c4_recovery_ttl_witness :
    (assocKeys (AsyncCache.mk 100 [("k", (some "v", some 8))]).entries).Nodup ∧
    (((3 : Rat) ≠ 0 → (3 : Rat) - (10 - 0) ≤ 0 →
      applyEntry 10 (AsyncCache.mk 100 [("k", (some "v", some 8))])
        ⟨some 0, "SET", "k", some "v", some 3⟩
        = AsyncCache.mk 100 [("k", (some "v", some 8))]) ∧
    ((3 : Rat) ≠ 0 → 0 < (3 : Rat) - (10 - 0) →
      assocGet "k" (applyEntry 10 (AsyncCache.mk 100 [("k", (some "v", some 8))])
        ⟨some 0, "SET", "k", some "v", some 3⟩).entries
        = some (some "v", some (10 + ((3 : Rat) - (10 - 0))))) ∧
    assocGet "k" (applyEntry 10 (AsyncCache.mk 100 [("k", (some "v", some 8))])
      ⟨some 0, "SET", "k", some "v", none⟩).entries = some (some "v", none) ∧
    assocGet "k" (applyEntry 10 (AsyncCache.mk 100 [("k", (some "v", some 8))])
      ⟨some 0, "SET", "k", some "v", some 0⟩).entries = some (some "v", none) ∧
    assocGet "k" (applyEntry 10 (AsyncCache.mk 100 [("k", (some "v", some 8))])
      ⟨some 0, "DEL", "k", some "v", some 3⟩).entries = none) :=
  ⟨by decide, c4_recovery_ttl 10 0 3 "k" (some "v")
    (AsyncCache.mk 100 [("k", (some "v", some 8))]) (by decide)⟩

/-! ## Compaction lemmas -/

/-- Lookup distributes over append. -/
theorem assocGet_append {α : Type} (k : String) (l1 l2 : List (String × α)) :
    assocGet k (l1 ++ l2)
      = match assocGet k l1 with
        | some v => some v
        | none => assocGet k l2 := by
  induction l1 with
  | nil => simp [assocGet]
  | cons p t ih =>
      obtain ⟨j, w⟩ := p
      by_cases hj : j = k <;> simp [assocGet, hj, ih]

/-- Over distinct keys, lookup ignores reversal. -/
theorem assocGet_reverse {α : Type} (k : String) (l : List (String × α))
    (hnd : (assocKeys l).Nodup) : assocGet k l.reverse = assocGet k l := by
  induction l with
  | nil => rfl
  | cons p t ih =>
      obtain ⟨j, w⟩ := p
      simp only [assocKeys_cons, List.nodup_cons] at hnd
      rw [List.reverse_cons, assocGet_append]
      by_cases hj : j = k
      · subst hj
        have h1 : assocGet j t = none := (assocGet_eq_none_iff j t).mpr hnd.1
        have h2 : assocGet j t.reverse = none := by rw [ih hnd.2, h1]
        rw [h2]
        simp [assocGet]
      · rw [ih hnd.2]
        cases hres : assocGet k t <;> simp [assocGet, hj, hres]

/-- Keys of an association list ignore reversal up to reversal. -/
theorem assocKeys_reverse {α : Type} (l : List (String × α)) :
    assocKeys l.reverse = (assocKeys l).reverse := by
  simp [assocKeys]

/-- The key of a replayed record binding. -/
theorem assocKeys_map_replayed (now : Rat) (recs : List JEntry) :
    assocKeys (recs.map (replayedEntry now)) = recs.map JEntry.key := by
  simp only [assocKeys, List.map_map]
  rfl

/-- Shape of each compaction record: a SET stamped with the compaction
time, whose TTL is either absent or a positive integer. -/
theorem compactFun_shape (now : Rat) (p : String × Option String × Option Rat) (e : JEntry)
    (h : compactFun now p = some e) :
    e.action = "SET" ∧ e.timestamp = some now ∧ e.key = p.1 ∧
      (e.ttl = none ∨ ∃ n : Int, 1 ≤ n ∧ e.ttl = some (n : Rat)) := by
  obtain ⟨k, v, expAt⟩ := p
  cases expAt with
  | none =>
      simp [compactFun] at h
      rw [← h]
      exact ⟨rfl, rfl, rfl, Or.inl rfl⟩
  | some e0 =>
      by_cases h0 : e0 = 0
      · simp [compactFun, h0] at h
        rw [← h]
        exact ⟨rfl, rfl, rfl, Or.inl rfl⟩
      · by_cases hn : max 0 (pyInt (e0 - now)) ≤ 0
        · simp [compactFun, h0, hn] at h
        · simp [compactFun, h0, hn] at h
          refine ⟨by rw [← h], by rw [← h], by rw [← h],
            Or.inr ⟨max 0 (pyInt (e0 - now)), by omega, ?_⟩⟩
          rw [← h]
          push_cast
          rfl

/-- The one-entry bridge between the compaction loop body and the binding
the amended claim predicts after replay. -/
theorem compactFun_replayed (now : Rat) (k : String) (v : Option String) (expAt : Option Rat) :
    (compactFun now (k, (v, expAt))).map (replayedEntry now)
      = (compactOutcome now v expAt).map (fun b => (k, b)) := by
  cases expAt with
  | none => simp [compactFun, compactOutcome, replayedEntry]
  | some e0 =>
      by_cases h0 : e0 = 0
      · simp [compactFun, compactOutcome, replayedEntry, h0]
      · by_cases hn : pyInt (e0 - now) ≤ 0
        · have hmx : max 0 (pyInt (e0 - now)) ≤ 0 := by omega
          simp [compactFun, compactOutcome, replayedEntry, h0, hn, hmx]
        · have hmx : ¬ (max 0 (pyInt (e0 - now)) ≤ 0) := by omega
          have hmax : max 0 (pyInt (e0 - now)) = pyInt (e0 - now) := by omega
          simp [compactFun, compactOutcome, replayedEntry, h0, hn, hmx, hmax]

/-- Keys of the mapped compaction output form a sublist of the snapshot
keys. -/
theorem compact_keys_sublist (now : Rat) (l : List (String × Option String × Option Rat)) :
    (assocKeys ((l.filterMap (compactFun now)).map (replayedEntry now))).Sublist
      (assocKeys l) := by
  induction l with
  | nil => simp [assocKeys]
  | cons p t ih =>
      obtain ⟨k, v, x⟩ := p
      cases hf : compactFun now (k, (v, x)) with
      | none =>
          rw [List.filterMap_cons_none hf]
          exact ih.cons k
      | some e =>
          rw [List.filterMap_cons_some hf]
          have hk : e.key = k := (compactFun_shape now (k, (v, x)) e hf).2.2.1
          rw [List.map_cons]
          rw [show assocKeys (replayedEntry now e :: (t.filterMap (compactFun now)).map
            (replayedEntry now)) = e.key :: assocKeys ((t.filterMap (compactFun now)).map
            (replayedEntry now)) from rfl, hk]
          exact ih.cons₂ k

/-- Binding-level characterization of compaction followed by replay: the
replayed compaction output binds exactly the keys the amended claim keeps,
each to its predicted value and recomputed expiry. -/
theorem compact_lookup (now : Rat) :
    ∀ (l : List (String × Option String × Option Rat)), (assocKeys l).Nodup →
    ∀ k, assocGet k ((l.filterMap (compactFun now)).map (replayedEntry now))
      = (assocGet k l).bind (fun b => compactOutcome now b.1 b.2) := by
  intro l
  induction l with
  | nil =>
      intro _ k
      rfl
  | cons p t ih =>
      intro hnd k
      obtain ⟨j, v, x⟩ := p
      simp only [assocKeys_cons, List.nodup_cons] at hnd
      have hbr := compactFun_replayed now j v x
      cases hco : compactOutcome now v x with
      | none =>
          rw [hco] at hbr
          have hf : compactFun now (j, (v, x)) = none := by
            simpa using hbr
          rw [List.filterMap_cons_none hf]
          by_cases hj : j = k
          · subst hj
            have hnot : j ∉ assocKeys ((t.filterMap (compactFun now)).map
                (replayedEntry now)) :=
              fun hm => hnd.1 ((compact_keys_sublist now t).mem hm)
            rw [(assocGet_eq_none_iff _ _).mpr hnot]
            simp [assocGet, hco]
          · rw [ih hnd.2 k]
            have hkj : ¬ j = k := hj
            simp [assocGet, hkj]
      | some b =>
          rw [hco] at hbr
          cases hf : compactFun now (j, (v, x)) with
          | none =>
              rw [hf] at hbr
              simp at hbr
          | some e =>
              rw [hf] at hbr
              have hbr2 : replayedEntry now e = (j, b) := by
                have h3 : some (replayedEntry now e) = some (j, b) := by simpa using hbr
                injection h3
              rw [List.filterMap_cons_some hf, List.map_cons, hbr2]
              by_cases hj : j = k
              · subst hj
                simp [assocGet, hco]
              · have hkj : ¬ j = k := hj
                simp only [assocGet, if_neg hkj]
                exact ih hnd.2 k

/-- Recovery of wrapped records is a fold of the per-record handler. -/
theorem recoverLines_map_some (now : Rat) (cap : Int) (recs : List JEntry) :
    recoverLines now cap (recs.map some) = recs.foldl (applyEntry now) (emptyAsync cap) := by
  unfold recoverLines
  rw [List.foldl_map]

/-- A put of an absent key into a cache strictly below capacity evicts
nothing and conses the new binding. -/
theorem async_put_absent_no_evict (c : AsyncCache) (now : Rat) (k : String)
    (v : Option String) (ttl : Option Rat) (hget : assocGet k c.entries = none)
    (hne : ¬ ((c.entries.length : Int) = c.capacity)) :
    AsyncCache.put c now k v ttl
      = ⟨c.capacity, (k, (v, ttl.map (fun t => now + t))) :: c.entries⟩ := by
  unfold AsyncCache.put
  rw [hget]
  simp [hne]

/-- A SET record with no TTL field is applied as a put with no expiry. -/
theorem applyEntry_set_none (now : Rat) (c : AsyncCache) (e : JEntry)
    (hact : e.action = "SET") (httl : e.ttl = none) :
    applyEntry now c e = c.put now e.key e.value none := by
  obtain ⟨ets, eact, ekey, eval, ettl⟩ := e
  dsimp only at hact httl
  subst hact httl
  simp [applyEntry, pyTruthy]

/-- A SET record with a nonzero TTL and a positive remaining TTL is
applied as a put with the remaining TTL. -/
theorem applyEntry_set_pos (now : Rat) (c : AsyncCache) (e : JEntry) (ts t : Rat)
    (hact : e.action = "SET") (hts : e.timestamp = some ts) (httl : e.ttl = some t)
    (ht0 : ¬ (t = 0)) (hrem : ¬ (t - (now - ts) ≤ 0)) :
    applyEntry now c e = c.put now e.key e.value (some (t - (now - ts))) := by
  obtain ⟨ets, eact, ekey, eval, ettl⟩ := e
  dsimp only at hact hts httl
  subst hact hts httl
  simp [applyEntry, pyTruthy, ht0, hrem]

/-- Replaying a list of SET records stamped now, with distinct fresh keys,
TTL fields that are absent or positive integers, and room within capacity,
conses exactly the predicted bindings (most recent first). -/
theorem replay_set_records (now : Rat) :
    ∀ (recs : List JEntry) (acc : AsyncCache),
    (∀ e ∈ recs, e.action = "SET" ∧ e.timestamp = some now ∧
      (e.ttl = none ∨ ∃ n : Int, 1 ≤ n ∧ e.ttl = some (n : Rat))) →
    ((recs.map JEntry.key) ++ assocKeys acc.entries).Nodup →
    ((acc.entries.length : Int) + recs.length ≤ acc.capacity) →
    recs.foldl (applyEntry now) acc
      = ⟨acc.capacity, (recs.map (replayedEntry now)).reverse ++ acc.entries⟩ := by
  intro recs
  induction recs with
  | nil =>
      intro acc _ _ _
      simp
  | cons e rest ih =>
      intro acc hsh hnd hlen
      obtain ⟨hact, hts, httl⟩ := hsh e (List.mem_cons_self e rest)
      rw [List.map_cons, List.cons_append, List.nodup_cons] at hnd
      obtain ⟨hkey_notmem, hnd2⟩ := hnd
      have hkacc : e.key ∉ assocKeys acc.entries :=
        fun hm => hkey_notmem (List.mem_append_right _ hm)
      have hkget : assocGet e.key acc.entries = none := (assocGet_eq_none_iff _ _).mpr hkacc
      have hlen1 : (0 : Int) ≤ (rest.length : Int) := by positivity
      have hlenc : ((e :: rest).length : Int) = (rest.length : Int) + 1 := by
        simp
      rw [hlenc] at hlen
      have hne : ¬ ((acc.entries.length : Int) = acc.capacity) := by omega
      have happ : applyEntry now acc e
          = ⟨acc.capacity, replayedEntry now e :: acc.entries⟩ := by
        rcases httl with hnone | ⟨n, hn1, hsome⟩
        · rw [applyEntry_set_none now acc e hact hnone,
            async_put_absent_no_evict acc now e.key e.value none hkget hne]
          simp [replayedEntry, hnone]
        · have hpos : (0 : Rat) < (n : Rat) := by exact_mod_cast (by omega : (0 : Int) < n)
          have htne : ¬ ((n : Rat) = 0) := ne_of_gt hpos
          have hrem : (n : Rat) - (now - now) = (n : Rat) := by ring
          have hngt : ¬ ((n : Rat) - (now - now) ≤ 0) := by
            rw [hrem]
            exact not_le.mpr hpos
          rw [applyEntry_set_pos now acc e now (n : Rat) hact hts hsome htne hngt,
            async_put_absent_no_evict acc now e.key e.value _ hkget hne]
          simp [replayedEntry, hsome, hrem]
      rw [List.foldl_cons, happ]
      have hstep := ih ⟨acc.capacity, replayedEntry now e :: acc.entries⟩
        (fun e2 he2 => hsh e2 (List.mem_cons_of_mem e he2))
        (by
          show (rest.map JEntry.key ++ (e.key :: assocKeys acc.entries)).Nodup
          have hperm : (rest.map JEntry.key ++ (e.key :: assocKeys acc.entries)).Perm
              (e.key :: (rest.map JEntry.key ++ assocKeys acc.entries)) := List.perm_middle
          rw [hperm.nodup_iff]
          exact List.nodup_cons.mpr ⟨hkey_notmem, hnd2⟩)
        (by
          show ((replayedEntry now e :: acc.entries).length : Int) + rest.length ≤ acc.capacity
          rw [List.length_cons]
          push_cast
          omega)
      rw [hstep]
      simp [List.reverse_cons, List.append_assoc]

/-- Python int() is the identity on integers. -/
theorem pyInt_intCast (n : Int) : pyInt (n : Rat) = n := by
  unfold pyInt
  by_cases h : (0 : Rat) ≤ (n : Rat)
  · rw [if_pos h, Int.floor_intCast]
  · rw [if_neg h, show (-(n : Rat)) = ((-n : Int) : Rat) from by push_cast; ring,
      Int.floor_intCast]
    ring

/-- The predicted post-compaction binding is a fixed point of a second
compaction and replay, for nonnegative clock values. -/
theorem compactOutcome_idem (now : Rat) (v : Option String) (expAt : Option Rat)
    (hnow : 0 ≤ now) :
    (compactOutcome now v expAt).bind (fun b => compactOutcome now b.1 b.2)
      = compactOutcome now v expAt := by
  cases expAt with
  | none => rfl
  | some e0 =>
      by_cases h0 : e0 = 0
      · simp [compactOutcome, h0]
      · by_cases hm : pyInt (e0 - now) ≤ 0
        · simp [compactOutcome, h0, hm]
        · have h1 : 1 ≤ pyInt (e0 - now) := by omega
          have h2 : (1 : Rat) ≤ (pyInt (e0 - now) : Rat) := by exact_mod_cast h1
          have hgt : (0 : Rat) < now + (pyInt (e0 - now) : Rat) := by linarith
          have hne0 : ¬ (now + (pyInt (e0 - now) : Rat) = 0) := ne_of_gt hgt
          have hsub : now + (pyInt (e0 - now) : Rat) - now
              = ((pyInt (e0 - now) : Int) : Rat) := by ring
          simp only [compactOutcome, if_neg h0, if_neg hm, Option.some_bind]
          show compactOutcome now v (some (now + (pyInt (e0 - now) : Rat)))
              = some (v, some (now + (pyInt (e0 - now) : Rat)))
          simp only [compactOutcome, if_neg hne0]
          rw [hsub, pyInt_intCast, if_neg hm]

/-- One compaction pass followed by a replay of the compacted WAL at the
same time: the resulting cache holds, newest first, exactly the replayed
bindings of the emitted records. -/
theorem compact_replay_round (now : Rat) (cap : Int)
    (l : List (String × Option String × Option Rat))
    (hnd : (assocKeys l).Nodup) (hlen : (l.length : Int) ≤ cap) :
    recoverLines now cap ((compactRecords now ⟨cap, l⟩).map some)
      = ⟨cap, ((l.filterMap (compactFun now)).map (replayedEntry now)).reverse⟩ := by
  rw [recoverLines_map_some]
  have hshape : ∀ e ∈ compactRecords now ⟨cap, l⟩, e.action = "SET" ∧
      e.timestamp = some now ∧ (e.ttl = none ∨ ∃ n : Int, 1 ≤ n ∧ e.ttl = some (n : Rat)) := by
    intro e he
    rw [show compactRecords now ⟨cap, l⟩ = l.filterMap (compactFun now) from rfl,
      List.mem_filterMap] at he
    obtain ⟨p, _, hfp⟩ := he
    obtain ⟨h1, h2, _, h4⟩ := compactFun_shape now p e hfp
    exact ⟨h1, h2, h4⟩
  have hkeys : ((compactRecords now ⟨cap, l⟩).map JEntry.key
      ++ assocKeys (emptyAsync cap).entries).Nodup := by
    rw [show assocKeys (emptyAsync cap).entries = ([] : List String) from rfl, List.append_nil,
      ← assocKeys_map_replayed now]
    exact List.Nodup.sublist (compact_keys_sublist now l) hnd
  have hlen2 : (((emptyAsync cap).entries.length : Int)
      + ((compactRecords now ⟨cap, l⟩).length : Int)) ≤ (emptyAsync cap).capacity := by
    have h2 := List.length_filterMap_le (compactFun now) l
    have h3 : ((l.filterMap (compactFun now)).length : Int) ≤ (l.length : Int) := by
      exact_mod_cast h2
    have h4 : ((compactRecords now ⟨cap, l⟩).length : Int) ≤ (l.length : Int) := h3
    show ((0 : Int) + ((compactRecords now ⟨cap, l⟩).length : Int)) ≤ cap
    omega
  rw [replay_set_records now (compactRecords now ⟨cap, l⟩) (emptyAsync cap) hshape hkeys hlen2]
  show (⟨cap, ((compactRecords now ⟨cap, l⟩).map (replayedEntry now)).reverse ++ []⟩ : AsyncCache)
    = _
  rw [List.append_nil]
  rfl

/-- c5 (counterexample): with the clock at 0, the entry expiring at 1/2 is
live and not expired, and the claim's recomputed TTL max(0, expires_at -
now) = 1/2 is positive, so by the claim one SET record must be emitted for
it; yet compaction emits nothing at all, because int() truncates the
remaining TTL to 0 and the entry is skipped — a live, non-expired key is
lost. -/
theorem c5_compaction_cex :
    (0 : Rat) < (1 : Rat)/2 ∧
    (0 : Rat) < max 0 ((1 : Rat)/2 - 0) ∧
    compactRecords 0 (AsyncCache.mk 10 [("k", (some "v", some ((1 : Rat)/2)))]) = [] := by
  refine ⟨by norm_num, by norm_num, ?_⟩
  norm_num [compactRecords, compactFun, pyInt]

/-- c5 (amended): for a well-formed cache within capacity observed at a
nonnegative time, one compaction followed by a replay of the compacted WAL
at the same time binds each live key exactly as predicted: an entry with
no (or falsy zero) expiry survives with no expiry, an entry whose
truncated remaining TTL int(expires_at - now) is not positive is omitted
(so a live key with under a second remaining is lost), and any other entry
survives with expiry recomputed to now + int(expires_at - now); moreover a
second compaction and replay with no intervening mutation reproduces the
same binding, so the logical state is unchanged. -/
theorem c5_compaction (now : Rat) (c : AsyncCache) (k : String) (v : Option String)
    (expAt : Option Rat) (hnow : 0 ≤ now)
    (hnd : (assocKeys c.entries).Nodup)
    (hlen : (c.entries.length : Int) ≤ c.capacity)
    (hget : assocGet k c.entries = some (v, expAt)) :
    assocGet k (recoverLines now c.capacity ((compactRecords now c).map some)).entries
      = compactOutcome now v expAt ∧
    assocGet k (recoverLines now c.capacity ((compactRecords now
        (recoverLines now c.capacity ((compactRecords now c).map some))).map some)).entries
      = assocGet k (recoverLines now c.capacity ((compactRecords now c).map some)).entries := by
  have hndL : (assocKeys ((c.entries.filterMap (compactFun now)).map
      (replayedEntry now))).Nodup :=
    List.Nodup.sublist (compact_keys_sublist now c.entries) hnd
  have round1 : recoverLines now c.capacity ((compactRecords now c).map some)
      = ⟨c.capacity, ((c.entries.filterMap (compactFun now)).map (replayedEntry now)).reverse⟩ :=
    compact_replay_round now c.capacity c.entries hnd hlen
  constructor
  · rw [round1]
    show assocGet k (((c.entries.filterMap (compactFun now)).map (replayedEntry now)).reverse)
        = compactOutcome now v expAt
    rw [assocGet_reverse _ _ hndL, compact_lookup now c.entries hnd k, hget]
    rfl
  · have hnd1 : (assocKeys (((c.entries.filterMap (compactFun now)).map
        (replayedEntry now)).reverse)).Nodup := by
      rw [assocKeys_reverse]
      exact List.nodup_reverse.mpr hndL
    have hlen1 : (((((c.entries.filterMap (compactFun now)).map
        (replayedEntry now)).reverse).length : Int)) ≤ c.capacity := by
      rw [List.length_reverse, List.length_map]
      have h2 := List.length_filterMap_le (compactFun now) c.entries
      have h3 : ((c.entries.filterMap (compactFun now)).length : Int)
          ≤ (c.entries.length : Int) := by exact_mod_cast h2
      omega
    have round2 : recoverLines now c.capacity ((compactRecords now
        (⟨c.capacity, ((c.entries.filterMap (compactFun now)).map
          (replayedEntry now)).reverse⟩ : AsyncCache)).map some)
        = ⟨c.capacity, (((((c.entries.filterMap (compactFun now)).map
            (replayedEntry now)).reverse).filterMap (compactFun now)).map
            (replayedEntry now)).reverse⟩ :=
      compact_replay_round now c.capacity _ hnd1 hlen1
    rw [round1, round2]
    show assocGet k ((((((c.entries.filterMap (compactFun now)).map
        (replayedEntry now)).reverse).filterMap (compactFun now)).map
        (replayedEntry now)).reverse)
        = assocGet k (((c.entries.filterMap (compactFun now)).map (replayedEntry now)).reverse)
    rw [assocGet_reverse _ _ (List.Nodup.sublist (compact_keys_sublist now _) hnd1),
      compact_lookup now _ hnd1 k,
      assocGet_reverse _ _ hndL, compact_lookup now c.entries hnd k, hget]
    show (compactOutcome now v expAt).bind (fun b => compactOutcome now b.1 b.2)
        = compactOutcome now v expAt
    exact compactOutcome_idem now v expAt hnow

/-- c5 (witness): the amended compaction round-trip at a concrete one-key
cache with a three-second TTL, observed at time 0. -/
theorem c5_compaction_witness :
    (0 : Rat) ≤ 0 ∧
    (assocKeys (AsyncCache.mk 10 [("k", (some "v", some 3))]).entries).Nodup ∧
    (((AsyncCache.mk 10 [("k", (some "v", some 3))]).entries.length : Int)
      ≤ (AsyncCache.mk 10 [("k", (some "v", some 3))]).capacity) ∧
    assocGet "k" (AsyncCache.mk 10 [("k", (some "v", some 3))]).entries
      = some (some "v", some 3) ∧
    (assocGet "k" (recoverLines 0 (AsyncCache.mk 10 [("k", (some "v", some 3))]).capacity
        ((compactRecords 0 (AsyncCache.mk 10 [("k", (some "v", some 3))])).map some)).entries
      = compactOutcome 0 (some "v") (some 3) ∧
    assocGet "k" (recoverLines 0 (AsyncCache.mk 10 [("k", (some "v", some 3))]).capacity
        ((compactRecords 0 (recoverLines 0
          (AsyncCache.mk 10 [("k", (some "v", some 3))]).capacity
          ((compactRecords 0 (AsyncCache.mk 10 [("k", (some "v", some 3))])).map
            some))).map some)).entries
      = assocGet "k" (recoverLines 0 (AsyncCache.mk 10 [("k", (some "v", some 3))]).capacity
        ((compactRecords 0 (AsyncCache.mk 10 [("k", (some "v", some 3))])).map some)).entries) :=
  ⟨le_refl 0, by decide, by decide, rfl,
    c5_compaction 0 (AsyncCache.mk 10 [("k", (some "v", some 3))]) "k" (some "v") (some 3)
      (le_refl 0) (by decide) (by decide) rfl⟩

end PyKV

